import Mathlib

/-!
Verification of the numjs strided-array facade (src/lib/index.ts).

The TypeScript source is shallowly embedded below.  JavaScript arrays of
numbers become `List Nat` / `List Int`; an access `a[i]` that may yield
`undefined` becomes `List.get?`; functions that may `throw` return
`Option`/`Except`.  The `NdArray` class itself (shape/stride views) is not
part of the given sources; where an operation of that class is needed it is
modelled from the specification and marked as such in its doc comment.
-/

namespace NJ

/-! ### 4.1 ShapeAlgebra: `broadcast` (src/lib/index.ts, lines 15-35)

`broadcast(shape1, shape2)` iterates `i = 0 .. maxLength-1` over the two
reversed shapes.  `reversed1[i]` can be `undefined` (index past the end),
which we model as `Option Nat`; the JavaScript truthiness test
`!reversed1[i]` is true for `undefined` and for `0`.  The loop can store
`reversed2[i]` even when that is `undefined`, so the result is a list of
`Option Nat` (`none` = an `undefined` entry in the output shape). -/

/-- One loop iteration of `broadcast`: given the two aligned entries
(`none` = `undefined`), produce the output entry, or `none` (outer) for the
`return;` (incompatible) case.  Mirrors the `if`/`else if` chain. -/
def bcDim (d1 d2 : Option Nat) : Option (Option Nat) :=
  if d1 = none ∨ d1 = some 0 ∨ d1 = some 1 then some d2
  else if d2 = none ∨ d2 = some 0 ∨ d2 = some 1 then some d1
  else if d1 = d2 then some d1
  else none

/-- The `for (let i = 0; i < maxLength; i++)` loop of `broadcast`; `fuel`
is the number of remaining iterations (`maxLength - i`). -/
def broadcastLoop (r1 r2 : List Nat) : Nat → Nat → Option (List (Option Nat))
  | _, 0 => some []
  | i, fuel + 1 =>
    match bcDim (r1.get? i) (r2.get? i) with
    | none => none
    | some d => (broadcastLoop r1 r2 (i + 1) fuel).map (fun rest => d :: rest)

/-- `broadcast` from src/lib/index.ts: returns `none` for the bare
`return;` (rank-0 input or incompatible dimensions). -/
def broadcast (shape1 shape2 : List Nat) : Option (List (Option Nat)) :=
  if shape1.length = 0 ∨ shape2.length = 0 then none
  else
    (broadcastLoop shape1.reverse shape2.reverse 0
      (max shape1.length shape2.length)).map List.reverse

/-- Structural (trailing-aligned) restatement of the broadcast rule, used
as the specification side of the refinement proof: recursion over the two
reversed shapes, one aligned pair at a time. -/
def alignDims : List Nat → List Nat → Option (List (Option Nat))
  | [], [] => some []
  | [], d2 :: t2 => (alignDims [] t2).map (fun r => some d2 :: r)
  | d1 :: t1, [] =>
    if d1 = 0 ∨ d1 = 1 then (alignDims t1 []).map (fun r => none :: r)
    else (alignDims t1 []).map (fun r => some d1 :: r)
  | d1 :: t1, d2 :: t2 =>
    if d1 = 0 ∨ d1 = 1 then (alignDims t1 t2).map (fun r => some d2 :: r)
    else if d2 = 0 ∨ d2 = 1 then (alignDims t1 t2).map (fun r => some d1 :: r)
    else if d1 = d2 then (alignDims t1 t2).map (fun r => some d1 :: r)
    else none

/-- Trailing-aligned broadcast rule over whole shapes (specification side). -/
def broadcastSpec (shape1 shape2 : List Nat) : Option (List (Option Nat)) :=
  if shape1 = [] ∨ shape2 = [] then none
  else (alignDims shape1.reverse shape2.reverse).map List.reverse

theorem get?_succ {α : Type} (l : List α) (i : Nat) :
    l.get? (i + 1) = l.tail.get? i := by
  cases l <;> simp

theorem broadcastLoop_shift (r1 r2 : List Nat) (fuel : Nat) :
    ∀ i, broadcastLoop r1 r2 (i + 1) fuel =
      broadcastLoop r1.tail r2.tail i fuel := by
  induction fuel with
  | zero => intro i; rfl
  | succ n ih =>
    intro i
    simp only [broadcastLoop, get?_succ, ih]

theorem bcDim_left_wild (a : Option Nat) (b : Option Nat)
    (h : a = none ∨ a = some 0 ∨ a = some 1) : bcDim a b = some b := by
  simp [bcDim, h]

theorem broadcastLoop_eq_alignDims :
    ∀ r1 r2 : List Nat,
      broadcastLoop r1 r2 0 (max r1.length r2.length) = alignDims r1 r2 := by
  intro r1
  induction r1 with
  | nil =>
    intro r2
    induction r2 with
    | nil => simp [alignDims, broadcastLoop]
    | cons b t2 ih =>
      rw [List.length_nil, List.length_cons, Nat.zero_max] at *
      rw [alignDims]
      rw [broadcastLoop]
      simp only [List.get?_nil, List.get?_cons_zero]
      rw [bcDim_left_wild _ _ (Or.inl rfl)]
      rw [broadcastLoop_shift, List.tail_nil, List.tail_cons, ih]
  | cons a t1 ih =>
    intro r2
    cases r2 with
    | nil =>
      rw [List.length_cons, List.length_nil, Nat.max_zero]
      have h := ih []
      rw [List.length_nil, Nat.max_zero] at h
      rw [alignDims, broadcastLoop]
      simp only [List.get?_cons_zero, List.get?_nil]
      rw [broadcastLoop_shift, List.tail_nil, List.tail_cons]
      by_cases h01 : a = 0 ∨ a = 1
      · have ha : (some a = none ∨ some a = some 0 ∨ some a = some 1) := by
          rcases h01 with h0 | h1
          · exact Or.inr (Or.inl (by rw [h0]))
          · exact Or.inr (Or.inr (by rw [h1]))
        rw [bcDim_left_wild _ _ ha]
        simp [h01, h]
      · have hne : ¬(some a = none ∨ some a = some 0 ∨ some a = some 1) := by
          simp only [Option.some.injEq]
          push_neg
          exact ⟨by simp, fun h0 => absurd (Or.inl h0) h01, fun h1 => absurd (Or.inr h1) h01⟩
        simp only [bcDim, hne, if_false, if_true,
          show ((none : Option Nat) = none ∨ (none : Option Nat) = some 0 ∨
            (none : Option Nat) = some 1) from Or.inl rfl]
        simp [h01, h]
    | cons b t2 =>
      rw [List.length_cons, List.length_cons, Nat.succ_max_succ]
      have h := ih t2
      rw [alignDims, broadcastLoop]
      simp only [List.get?_cons_zero]
      rw [broadcastLoop_shift, List.tail_cons, List.tail_cons]
      by_cases h01 : a = 0 ∨ a = 1
      · have ha : (some a = none ∨ some a = some 0 ∨ some a = some 1) := by
          rcases h01 with h0 | h1
          · exact Or.inr (Or.inl (by rw [h0]))
          · exact Or.inr (Or.inr (by rw [h1]))
        rw [bcDim_left_wild _ _ ha]
        simp [h01, h]
      · have hne : ¬(some a = none ∨ some a = some 0 ∨ some a = some 1) := by
          simp only [Option.some.injEq]
          push_neg
          exact ⟨by simp, fun h0 => absurd (Or.inl h0) h01, fun h1 => absurd (Or.inr h1) h01⟩
        by_cases h02 : b = 0 ∨ b = 1
        · have hb : (some b = none ∨ some b = some 0 ∨ some b = some 1) := by
            rcases h02 with h0 | h1
            · exact Or.inr (Or.inl (by rw [h0]))
            · exact Or.inr (Or.inr (by rw [h1]))
          simp only [bcDim, hne, hb, if_false, if_true]
          simp [h01, h02, h]
        · have hnb : ¬(some b = none ∨ some b = some 0 ∨ some b = some 1) := by
            simp only [Option.some.injEq]
            push_neg
            exact ⟨by simp, fun h0 => absurd (Or.inl h0) h02, fun h1 => absurd (Or.inr h1) h02⟩
          by_cases heq : a = b
          · simp only [bcDim, hne, hnb, heq, if_false, if_true]
            simp [h01, h02, heq, h]
          · have hne2 : ¬((some a : Option Nat) = some b) := by simp [heq]
            simp only [bcDim, hne, hnb, hne2, if_false]
            simp [h01, h02, heq, h]

theorem broadcast_eq_broadcastSpec (s1 s2 : List Nat) :
    broadcast s1 s2 = broadcastSpec s1 s2 := by
  unfold broadcast broadcastSpec
  have h1 : (s1.length = 0 ∨ s2.length = 0) ↔ (s1 = [] ∨ s2 = []) := by
    simp [List.length_eq_zero]
  by_cases h : s1 = [] ∨ s2 = []
  · simp [h, h1.mpr h]
  · have h' : ¬(s1.length = 0 ∨ s2.length = 0) := fun hc => h (h1.mp hc)
    simp only [h, h', if_false]
    have := broadcastLoop_eq_alignDims s1.reverse s2.reverse
    simp only [List.length_reverse] at this
    rw [this]

theorem alignDims_get :
    ∀ (r1 r2 : List Nat) (res : List (Option Nat)), alignDims r1 r2 = some res →
      ∀ i, (r1.get? i = some 0 → res.get? i = some (r2.get? i)) ∧
        (∀ d, r2.get? i = some 0 → r1.get? i = some d → d ≠ 1 →
          res.get? i = some (some d)) := by
  intro r1
  induction r1 with
  | nil =>
    intro r2 res _ i
    constructor
    · intro h0; simp at h0
    · intro d _ h1 _; simp at h1
  | cons d1 t1 ih =>
    intro r2
    cases r2 with
    | nil =>
      intro res h i
      rw [alignDims] at h
      by_cases h01 : d1 = 0 ∨ d1 = 1
      · rw [if_pos h01] at h
        cases hh : alignDims t1 [] with
        | none => rw [hh] at h; simp at h
        | some res' =>
          rw [hh] at h
          simp only [Option.map_some', Option.some.injEq] at h
          subst h
          cases i with
          | zero =>
            constructor
            · intro _; simp
            · intro d h2 _ _; simp at h2
          | succ n =>
            constructor
            · intro h0
              simp only [List.get?_cons_succ] at h0 ⊢
              have := (ih [] res' hh n).1 h0
              simpa using this
            · intro d h2 _ _; simp at h2
      · rw [if_neg h01] at h
        cases hh : alignDims t1 [] with
        | none => rw [hh] at h; simp at h
        | some res' =>
          rw [hh] at h
          simp only [Option.map_some', Option.some.injEq] at h
          subst h
          cases i with
          | zero =>
            constructor
            · intro h0
              simp only [List.get?_cons_zero, Option.some.injEq] at h0
              exact absurd (Or.inl h0) h01
            · intro d h2 _ _; simp at h2
          | succ n =>
            constructor
            · intro h0
              simp only [List.get?_cons_succ] at h0 ⊢
              have := (ih [] res' hh n).1 h0
              simpa using this
            · intro d h2 _ _; simp at h2
    | cons d2 t2 =>
      intro res h i
      rw [alignDims] at h
      by_cases h01 : d1 = 0 ∨ d1 = 1
      · rw [if_pos h01] at h
        cases hh : alignDims t1 t2 with
        | none => rw [hh] at h; simp at h
        | some res' =>
          rw [hh] at h
          simp only [Option.map_some', Option.some.injEq] at h
          subst h
          cases i with
          | zero =>
            constructor
            · intro _; simp
            · intro d h2 h1 hne
              simp only [List.get?_cons_zero, Option.some.injEq] at h2 h1 ⊢
              rcases h01 with h0 | hone
              · rw [h2, ← h1, h0]
              · exact absurd (h1 ▸ hone) hne
          | succ n =>
            constructor
            · intro h0
              simp only [List.get?_cons_succ] at h0 ⊢
              exact (ih t2 res' hh n).1 h0
            · intro d h2 h1 hne
              simp only [List.get?_cons_succ] at h2 h1 ⊢
              exact (ih t2 res' hh n).2 d h2 h1 hne
      · rw [if_neg h01] at h
        by_cases h02 : d2 = 0 ∨ d2 = 1
        · rw [if_pos h02] at h
          cases hh : alignDims t1 t2 with
          | none => rw [hh] at h; simp at h
          | some res' =>
            rw [hh] at h
            simp only [Option.map_some', Option.some.injEq] at h
            subst h
            cases i with
            | zero =>
              constructor
              · intro h0
                simp only [List.get?_cons_zero, Option.some.injEq] at h0
                exact absurd (Or.inl h0) h01
              · intro d h2 h1 _
                simp only [List.get?_cons_zero, Option.some.injEq] at h1 ⊢
                rw [h1]
            | succ n =>
              constructor
              · intro h0
                simp only [List.get?_cons_succ] at h0 ⊢
                exact (ih t2 res' hh n).1 h0
              · intro d h2 h1 hne
                simp only [List.get?_cons_succ] at h2 h1 ⊢
                exact (ih t2 res' hh n).2 d h2 h1 hne
        · rw [if_neg h02] at h
          by_cases heq : d1 = d2
          · rw [if_pos heq] at h
            cases hh : alignDims t1 t2 with
            | none => rw [hh] at h; simp at h
            | some res' =>
              rw [hh] at h
              simp only [Option.map_some', Option.some.injEq] at h
              subst h
              cases i with
              | zero =>
                constructor
                · intro h0
                  simp only [List.get?_cons_zero, Option.some.injEq] at h0
                  exact absurd (Or.inl h0) h01
                · intro d h2 _ _
                  simp only [List.get?_cons_zero, Option.some.injEq] at h2
                  exact absurd (Or.inl h2) h02
              | succ n =>
                constructor
                · intro h0
                  simp only [List.get?_cons_succ] at h0 ⊢
                  exact (ih t2 res' hh n).1 h0
                · intro d h2 h1 hne
                  simp only [List.get?_cons_succ] at h2 h1 ⊢
                  exact (ih t2 res' hh n).2 d h2 h1 hne
          · rw [if_neg heq] at h
            simp at h

/-- If `broadcast` succeeds on `(s1, s2)`, the output (read from the
trailing end) is `alignDims` of the reversed shapes. -/
theorem broadcast_some_reverse (s1 s2 : List Nat) (out : List (Option Nat))
    (h : broadcast s1 s2 = some out) :
    alignDims s1.reverse s2.reverse = some out.reverse := by
  rw [broadcast] at h
  by_cases hz : s1.length = 0 ∨ s2.length = 0
  · rw [if_pos hz] at h; simp at h
  · rw [if_neg hz] at h
    have he := broadcastLoop_eq_alignDims s1.reverse s2.reverse
    simp only [List.length_reverse] at he
    rw [he] at h
    cases hh : alignDims s1.reverse s2.reverse with
    | none => rw [hh] at h; simp at h
    | some res =>
      rw [hh] at h
      simp only [Option.map_some', Option.some.injEq] at h
      rw [← h, List.reverse_reverse]

/-- **C1** (amended).  `broadcastShape` aligns the two shapes from the
trailing dimension; an aligned pair `(d1, d2)` yields the aligned entry of
shape2 — possibly an `undefined` entry in the output — when `d1` is
missing, `0`, or `1`; else `d1` when `d2` is missing, `0`, or `1`; else
`d1` when `d1 == d2`; otherwise the operation fails.  The result has rank
`max(rank1, rank2)`; a rank-0 input always fails.  In particular
`broadcastShape([3,1],[1,4]) == [3,4]` and `broadcastShape([2,3],[4])`
fails.  (Amended from the claim: a dimension equal to `0` is treated like
a missing or size-1 dimension instead of causing failure.) -/
theorem broadcast_follows_trailing_rule :
    (∀ s1 s2 : List Nat, broadcast s1 s2 = broadcastSpec s1 s2) ∧
    broadcast [3, 1] [1, 4] = some [some 3, some 4] ∧
    broadcast [2, 3] [4] = none :=
  ⟨broadcast_eq_broadcastSpec, by decide, by decide⟩

/-- **C1** counterexample.  The claim states that whenever an aligned pair
is unequal with neither side missing nor equal to 1, `broadcastShape`
fails.  The pair `(0, 5)` is such a pair, yet the code succeeds and
returns `[5]`: the truthiness test `!reversed1[i]` treats a `0` dimension
like a missing one. -/
theorem broadcast_zero_dim_counterexample : broadcast [0] [5] = some [some 5] := by
  decide

/-- **C9** (amended).  `broadcast` fails whenever either input shape is
empty (rank 0).  A `0` dimension never causes failure: when shape1's
aligned dimension is `0`, the result entry is shape2's aligned entry, and
when shape2's aligned dimension is `0` while shape1's is present and not
equal to `1`, the result entry is shape1's dimension.  (Amended from the
claim: for the aligned pair `(1, 0)` the result entry is `0` — shape1's
`1` is tested first and yields shape2's `0` — not the other operand's
dimension `1`.) -/
theorem broadcast_empty_and_zero_rule :
    (∀ s : List Nat, broadcast [] s = none) ∧
    (∀ s : List Nat, broadcast s [] = none) ∧
    (∀ (s1 s2 : List Nat) (out : List (Option Nat)) (i : Nat),
      broadcast s1 s2 = some out → s1.reverse.get? i = some 0 →
      out.reverse.get? i = some (s2.reverse.get? i)) ∧
    (∀ (s1 s2 : List Nat) (out : List (Option Nat)) (i d : Nat),
      broadcast s1 s2 = some out → s2.reverse.get? i = some 0 →
      s1.reverse.get? i = some d → d ≠ 1 →
      out.reverse.get? i = some (some d)) := by
  refine ⟨?_, ?_, ?_, ?_⟩
  · intro s; simp [broadcast]
  · intro s; simp [broadcast]
  · intro s1 s2 out i h h0
    exact (alignDims_get s1.reverse s2.reverse out.reverse
      (broadcast_some_reverse s1 s2 out h) i).1 h0
  · intro s1 s2 out i d h h2 h1 hne
    exact (alignDims_get s1.reverse s2.reverse out.reverse
      (broadcast_some_reverse s1 s2 out h) i).2 d h2 h1 hne

/-- **C9** counterexample.  The claim states that for an aligned pair
where one side equals `0`, the result is the *other* operand's dimension.
For shapes `[1]` and `[0]` the aligned pair is `(1, 0)`; the other
operand's dimension is `1`, but the code returns `[0]`. -/
theorem broadcast_one_zero_counterexample : broadcast [1] [0] = some [some 0] := by
  decide

/-- **C9** witness: the amended rule applied at shapes `[2,0]` and `[2,3]`,
whose trailing aligned pair is `(0, 3)`. -/
theorem broadcast_empty_and_zero_rule_witness :
    broadcast [2, 0] [2, 3] = some [some 2, some 3] ∧
    ([some 2, some 3] : List (Option Nat)).reverse.get? 0 =
      some (([2, 3] : List Nat).reverse.get? 0) :=
  ⟨by decide, broadcast_empty_and_zero_rule.2.2.1 [2, 0] [2, 3]
    [some 2, some 3] 0 (by decide) (by decide)⟩

/-! ### `arange` (src/lib/index.ts, lines 293-332)

After overload dispatch, `arange(start, stop, step)` runs
`while (start < stop) { result[i++] = start; start += step; }` and wraps
the result list in an NdArray.  The loop is embedded step-indexed: `fuel`
bounds the number of iterations that may still run and `none` means the
loop did not finish within the bound (for `step ≥ 1` a sufficient fuel is
proved below; for `step ≤ 0` and `start < stop` no fuel suffices — the
JavaScript loop never terminates). -/

def arangeLoop (stop stp : Int) : Nat → Int → Option (List Int)
  | 0, _ => none
  | fuel + 1, start =>
    if start < stop then
      (arangeLoop stop stp fuel (start + stp)).map (fun r => start :: r)
    else some []

/-- `arange(start, stop, step)` (the element list of the resulting 1-D
array), with the canonical sufficient fuel for a positive step. -/
def arange (start stop stp : Int) : Option (List Int) :=
  arangeLoop stop stp ((stop - start).toNat + 1) start

/-- The single-argument overload: `arange(n)` dispatches to
`arange(0, n, 1, undefined)`. -/
def arange1 (n : Int) : Option (List Int) :=
  arange 0 n 1

theorem arange_no_elem_of_ge (start stop stp : Int) (hns : ¬start < stop)
    (v : Int) : ¬∃ k : Nat, v = start + k * stp ∧ v < stop ∧ 1 ≤ stp := by
  rintro ⟨k, hk, hlt, hstp⟩
  have h0 : (0 : Int) ≤ (k : Int) * stp :=
    mul_nonneg (Int.ofNat_nonneg k) (by omega)
  linarith

theorem arangeLoop_spec (stop stp : Int) (hstp : 1 ≤ stp) :
    ∀ (g : Nat) (start : Int), (stop - start).toNat ≤ g →
      ∃ l, arangeLoop stop stp (g + 1) start = some l ∧
        (∀ v : Int, v ∈ l ↔ ∃ k : Nat, v = start + k * stp ∧ v < stop) ∧
        l.Chain' (· < ·) ∧ (∀ v ∈ l, start ≤ v) := by
  intro g
  induction g with
  | zero =>
    intro start hg
    have hns : ¬start < stop := by omega
    refine ⟨[], ?_, ?_, List.chain'_nil, ?_⟩
    · rw [arangeLoop, if_neg hns]
    · intro v
      simp only [List.not_mem_nil, false_iff]
      intro ⟨k, hk, hlt⟩
      exact arange_no_elem_of_ge start stop stp hns v ⟨k, hk, hlt, hstp⟩
    · intro v hv; simp at hv
  | succ n ihg =>
    intro start hg
    by_cases hlt : start < stop
    · have hg' : (stop - (start + stp)).toNat ≤ n := by omega
      obtain ⟨l', hl', hmem, hch, hlb⟩ := ihg (start + stp) hg'
      refine ⟨start :: l', ?_, ?_, ?_, ?_⟩
      · rw [arangeLoop, if_pos hlt, hl', Option.map_some']
      · intro v
        constructor
        · intro hv
          rcases List.mem_cons.mp hv with rfl | hv'
          · exact ⟨0, by simp, hlt⟩
          · obtain ⟨k, hk, hklt⟩ := (hmem v).mp hv'
            refine ⟨k + 1, ?_, hklt⟩
            push_cast
            linarith [hk]
        · rintro ⟨k, hk, hklt⟩
          cases k with
          | zero =>
            simp only [Nat.cast_zero, zero_mul, add_zero] at hk
            exact hk ▸ List.mem_cons_self _ _
          | succ k' =>
            refine List.mem_cons_of_mem _ ((hmem v).mpr ⟨k', ?_, hklt⟩)
            push_cast at hk ⊢
            linarith [hk]
      · refine List.chain'_cons'.mpr ⟨?_, hch⟩
        intro b hb
        have hbmem : b ∈ l' := List.mem_of_mem_head? hb
        have := hlb b hbmem
        linarith
      · intro v hv
        rcases List.mem_cons.mp hv with rfl | hv'
        · exact le_refl _
        · have := hlb v hv'
          linarith
    · refine ⟨[], ?_, ?_, List.chain'_nil, ?_⟩
      · rw [arangeLoop, if_neg hlt]
      · intro v
        simp only [List.not_mem_nil, false_iff]
        intro ⟨k, hk, hlt'⟩
        exact arange_no_elem_of_ge start stop stp hlt v ⟨k, hk, hlt', hstp⟩
      · intro v hv; simp at hv

/-- **C10**.  For all integers `start`, `stop` and every integer step
`≥ 1`, `arange(start, stop, step)` terminates (the canonical fuel
suffices) and returns exactly the values `start + k*step` that are
strictly below `stop`, in strictly increasing order; when `start ≥ stop`
the result is empty; `arange(n)` is `arange(0, n, 1)`; and with
`step ≤ 0` and `start < stop` no amount of fuel makes the loop finish
(the while loop never terminates). -/
theorem arange_positive_step_spec :
    (∀ start stop stp : Int, 1 ≤ stp →
      ∃ l, arange start stop stp = some l ∧
        (∀ v : Int, v ∈ l ↔ ∃ k : Nat, v = start + k * stp ∧ v < stop) ∧
        l.Chain' (· < ·) ∧
        (stop ≤ start → l = [])) ∧
    (∀ n : Int, arange1 n = arange 0 n 1) ∧
    (∀ stp start stop : Int, stp ≤ 0 → start < stop →
      ∀ fuel, arangeLoop stop stp fuel start = none) := by
  refine ⟨?_, fun n => rfl, ?_⟩
  · intro start stop stp hstp
    obtain ⟨l, hl, hmem, hch, _⟩ :=
      arangeLoop_spec stop stp hstp ((stop - start).toNat) start (le_refl _)
    refine ⟨l, hl, hmem, hch, ?_⟩
    intro hle
    have hns : ¬start < stop := by omega
    have h0 : arangeLoop stop stp ((stop - start).toNat + 1) start = some [] := by
      rw [arangeLoop, if_neg hns]
    rw [h0] at hl
    exact (Option.some.injEq _ _ ▸ hl).symm
  · intro stp start stop hstp hlt fuel
    induction fuel generalizing start with
    | zero => rfl
    | succ n ih =>
      have hlt' : start + stp < stop := by omega
      rw [arangeLoop, if_pos hlt, ih (start + stp) hlt', Option.map_none']

/-- **C10** witness: the specification applied at `arange(0, 5, 2)`. -/
theorem arange_positive_step_spec_witness :
    ∃ l, arange 0 5 2 = some l ∧
      (∀ v : Int, v ∈ l ↔ ∃ k : Nat, v = 0 + k * 2 ∧ v < 5) ∧
      l.Chain' (· < ·) ∧ ((5 : Int) ≤ 0 → l = []) :=
  arange_positive_step_spec.1 0 5 2 (by norm_num)

/-! ### `sigmoid` (src/lib/index.ts, lines 426-444)

The cwise kernel is
`a = a < -30 ? 0 : a > 30 ? 1 : 1 / (1 + Math.exp(-1 * t * a));`
applied in place to a clone of the input; the wrapper sets `t = t || 1`.
Real numbers stand in for IEEE doubles. -/

noncomputable def sigmoidElem (t a : ℝ) : ℝ :=
  if a < -30 then 0 else if a > 30 then 1 else 1 / (1 + Real.exp (-1 * t * a))

/-- `sigmoid(x, t)` on the element list of the input: `t` omitted (or `0`,
which is falsy) becomes `1`, then the kernel is mapped over a clone. -/
noncomputable def sigmoid (x : List ℝ) (t? : Option ℝ) : List ℝ :=
  x.map (sigmoidElem (match t? with
    | none => 1
    | some tv => if tv = 0 then 1 else tv))

/-- **C2** (amended).  `sigmoid(x, t)` uses the effective stiffness
`t' = 1` when `t` is omitted *or zero* (the JavaScript `t = t || 1`
default) and `t' = t` otherwise; every element of the result equals
`1/(1+exp(-t'*x_i))` except that elements whose *raw* value lies
outside `[-30, 30]` saturate: exactly `0` when `x_i < -30` and exactly
`1` when `x_i > 30` — the saturation threshold is applied to `x_i`,
not to `t'*x_i`. -/
theorem sigmoid_saturates_on_raw_element :
    (∀ x : List ℝ, sigmoid x none = x.map (sigmoidElem 1)) ∧
    (∀ x : List ℝ, sigmoid x (some 0) = x.map (sigmoidElem 1)) ∧
    (∀ (x : List ℝ) (t : ℝ), t ≠ 0 → sigmoid x (some t) = x.map (sigmoidElem t)) ∧
    (∀ t a : ℝ, a < -30 → sigmoidElem t a = 0) ∧
    (∀ t a : ℝ, a > 30 → sigmoidElem t a = 1) ∧
    (∀ t a : ℝ, -30 ≤ a → a ≤ 30 →
      sigmoidElem t a = 1 / (1 + Real.exp (-1 * t * a))) := by
  refine ⟨fun x => rfl, ?_, ?_, ?_, ?_, ?_⟩
  · intro x
    simp [sigmoid]
  · intro x t ht
    simp only [sigmoid, if_neg ht]
  · intro t a ha
    rw [sigmoidElem, if_pos ha]
  · intro t a ha
    rw [sigmoidElem, if_neg (by linarith), if_pos ha]
  · intro t a ha1 ha2
    rw [sigmoidElem, if_neg (by linarith), if_neg (by linarith)]

/-- **C2** witness: the saturation rule applied at `t = 1`, `x = 31`. -/
theorem sigmoid_saturates_witness : sigmoidElem 1 31 = 1 :=
  sigmoid_saturates_on_raw_element.2.2.2.2.1 1 31 (by norm_num)

/-- **C2** counterexample.  With stiffness `t = 2` and element
`x = -30` we have `t*x = -60 < -30`, so the claim demands the result
element be exactly `0`; but the code tests the raw element
(`-30 < -30` is false) and returns `1/(1+exp(60))`, which is positive. -/
theorem sigmoid_counterexample : sigmoid [(-30 : ℝ)] (some 2) ≠ [0] := by
  have ht : sigmoid [(-30 : ℝ)] (some 2) = [sigmoidElem 2 (-30)] := by
    rw [sigmoid]
    norm_num
  rw [ht, sigmoidElem, if_neg (by norm_num), if_neg (by norm_num)]
  intro h
  have h0 : 1 / (1 + Real.exp (-1 * 2 * (-30 : ℝ))) = 0 := by
    simpa using h
  have hpos : (0 : ℝ) < 1 + Real.exp (-1 * 2 * (-30 : ℝ)) := by positivity
  exact one_div_ne_zero (ne_of_gt hpos) h0

/-! ### The strided View and the view-producing operations

`flip` and `rot90` live in src/lib/index.ts, but they delegate to the
`NdArray` methods `step` and `transpose`, which are not part of the given
sources; those two are modelled from the specification (§4.2). -/

/-- §3 data model: a View is a `(buffer, shape, strides, offset)` tuple. -/
structure View where
  buffer : List Int
  shape : List Nat
  strides : List Int
  offset : Int
deriving DecidableEq

/-- All multi-indices of a shape, in row-major (C) order. -/
def indicesOf : List Nat → List (List Nat)
  | [] => [[]]
  | d :: rest => (List.range d).flatMap (fun i => (indicesOf rest).map (fun idx => i :: idx))

/-- Element at a multi-index: `buffer[offset + Σ idx[i]*strides[i]]`. -/
def View.getAt (v : View) (idx : List Nat) : Int :=
  v.buffer.getD (v.offset + ((idx.zip v.strides).map
    (fun p => (p.1 : Int) * p.2)).sum).toNat 0

/-- The elements of a view in row-major traversal order. -/
def View.elems (v : View) : List Int :=
  (indicesOf v.shape).map v.getAt

/-- Modelled from the spec: `NdArray.step` is not part of the given
sources.  §4.2: "multiplies each axis's stride by a given integer factor
(negative allowed for reversal, adjusting offset to the last valid
element for that axis); shape recomputed as `ceil(shape[i]/abs(step[i]))`.
Zero step is invalid." -/
def step (m : View) (factors : List Int) : Option View :=
  if factors.length = m.shape.length ∧ factors.all (fun f => f ≠ 0) then
    some ⟨m.buffer,
      (m.shape.zip factors).map (fun p => (p.1 + p.2.natAbs - 1) / p.2.natAbs),
      (m.strides.zip factors).map (fun p => p.1 * p.2),
      m.offset + ((m.shape.zip (m.strides.zip factors)).map
        (fun p => if p.2.2 < 0 then p.2.1 * ((p.1 : Int) - 1) else 0)).sum⟩
  else none

/-- Modelled from the spec: `NdArray.transpose` is not part of the given
sources.  §4.2: "permutes (shape, strides) according to `axes` (default:
full reversal); must be a permutation of `[0, rank)`, else error; always
a shared-buffer view." -/
def transpose (m : View) (axes? : Option (List Int)) : Option View :=
  match axes? with
  | none => some ⟨m.buffer, m.shape.reverse, m.strides.reverse, m.offset⟩
  | some axes =>
    if axes.length = m.shape.length ∧
        (List.range m.shape.length).all (fun i => (i : Int) ∈ axes) then
      some ⟨m.buffer, axes.map (fun ax => m.shape.getD ax.toNat 0),
        axes.map (fun ax => m.strides.getD ax.toNat 0), m.offset⟩
    else none

/-- `flip(m, axis)` (src/lib/index.ts, lines 849-863): builds
`indexer = ones(m.ndim).tolist()`, normalizes a negative axis by
repeatedly adding `ndim` (written in closed form; for `ndim = 0` with a
negative axis the JavaScript loop never terminates — modelled as `none`,
unreachable in the theorems below), raises `ValueError` when
`indexer[cleanaxis]` is `undefined` (`cleanaxis ≥ ndim`), sets
`indexer[cleanaxis] = -1` and delegates to `step`. -/
def flip (m : View) (axis : Int) : Option View :=
  if axis < 0 ∧ m.shape.length = 0 then none
  else
    let clean : Int :=
      if axis < 0 then
        axis + (m.shape.length : Int) *
          ((((-axis).toNat + m.shape.length - 1) / m.shape.length : Nat) : Int)
      else axis
    if clean < (m.shape.length : Int) then
      step m ((List.range m.shape.length).map
        (fun (i : Nat) => if (i : Int) = clean then -1 else 1))
    else none

/-- The `while (k < 0) { k += 4; }` normalization of `rot90`, in closed
form: `4` is added exactly `ceil(-k/4)` times when `k` is negative. -/
def wrapNeg (k : Int) : Int :=
  k + 4 * ((((-k).toNat + 3) / 4 : Nat) : Int)

/-- `axesList` of `rot90`: `arange(m.ndim)` with entries at positions
`a` and `b` swapped. -/
def swapAxesList (ndim : Nat) (a b : Int) : List Int :=
  (List.range ndim).map
    (fun (i : Nat) => if (i : Int) = a then b else if (i : Int) = b then a else (i : Int))

/-- `rot90(m, k, axes)` (src/lib/index.ts, lines 874-909).  `k = k || 1`
(so `k` omitted *or zero* becomes 1), a negative `k` wraps by `+= 4`,
then `k %= 4`; `axes` defaults to `[0, 1]` and must be a length-2 list
with distinct entries.  The guard
`abs(axes2[0]-axes2[1]).ndim === m.ndim` compares a scalar NdArray's
rank with `m.ndim`; the scalar's rank is modelled from the spec (§4.1:
"empty shape ⇒ size 1 (scalar)") as `0`, so the guard only fires for a
rank-0 `m`; the theorems below only concern ranks ≥ 2, where either
reading of the scalar's rank is ≠ `m.ndim`. -/
def rot90 (m : View) (k? : Option Int) (axes? : Option (List Int)) : Option View :=
  let k1 : Int := match k? with | none => 1 | some kv => if kv = 0 then 1 else kv
  let k : Int := wrapNeg k1 % 4
  match (match axes? with | none => [0, 1] | some a => a) with
  | [a, b] =>
    if a = b ∨ m.shape.length = 0 then none
    else if k = 0 then some m
    else if k = 2 then flip m a >>= fun f1 => flip f1 b
    else if k = 1 then
      flip m b >>= fun f => transpose f (some (swapAxesList m.shape.length a b))
    else
      transpose m (some (swapAxesList m.shape.length a b)) >>= fun tr => flip tr b
  | _ => none

theorem wrapNeg_emod (k : Int) : wrapNeg k % 4 = k % 4 := by
  unfold wrapNeg
  exact Int.add_mul_emod_self_left k 4 _

/-- **C3** (amended).  `rot90(m, k, [a, b])` treats an omitted *or zero*
`k` as `1` (the JavaScript `k || 1` default), wraps a negative `k` by
adding 4 and reduces modulo 4; a normalized `k ≡ 0` (reachable only for
nonzero multiples of 4) returns `m` itself; `k ≡ 2` is two `flip`s along
the two given axes; `k ≡ 1` / `k ≡ 3` combine one `flip` and one
`transpose` that swaps the two given axes; the defaults are `k = 1` and
`axes = [0, 1]`. -/
theorem rot90_normalizes_k (v : View) (a b : Int) (hab : a ≠ b)
    (hd : 2 ≤ v.shape.length) :
    (∀ k : Int,
      rot90 v (some k) (some [a, b]) =
        (if (if k = 0 then 1 else k) % 4 = 0 then some v
         else if (if k = 0 then 1 else k) % 4 = 2 then
           flip v a >>= fun f1 => flip f1 b
         else if (if k = 0 then 1 else k) % 4 = 1 then
           flip v b >>= fun f => transpose f (some (swapAxesList v.shape.length a b))
         else
           transpose v (some (swapAxesList v.shape.length a b)) >>=
             fun tr => flip tr b)) ∧
    (∀ k? : Option Int, rot90 v k? none = rot90 v k? (some [0, 1])) ∧
    (rot90 v none (some [a, b]) = rot90 v (some 1) (some [a, b])) := by
  have hnd : ¬(a = b ∨ v.shape.length = 0) := by
    push_neg
    exact ⟨hab, by omega⟩
  refine ⟨?_, fun k? => rfl, ?_⟩
  · intro k
    simp only [rot90, wrapNeg_emod, if_neg hnd]
  · simp only [rot90]
    norm_num

/-- A concrete 2×2 view used for witnesses: row-major over `[1,2,3,4]`. -/
def sampleView : View :=
  ⟨[1, 2, 3, 4], [2, 2], [2, 1], 0⟩

/-- **C3** counterexample.  The claim says an input `k = 0` normalizes to
`0` and returns `m` itself (the identity view); but `k = k || 1` treats
an explicit `0` as the default `1`, so `rot90(m, 0)` rotates once. -/
theorem rot90_zero_k_counterexample :
    rot90 sampleView (some 0) none ≠ some sampleView := by
  decide

/-- **C3** witness: the characterization applied at the 2×2 sample view
with axes `[0, 1]` and `k = 4`, whose normalized `k` is `0`. -/
theorem rot90_normalizes_k_witness :
    rot90 sampleView (some 4) (some [0, 1]) = some sampleView :=
  ((rot90_normalizes_k sampleView 0 1 (by decide) (by decide)).1 4).trans
    (by decide)

theorem flip_2d_axis1 (buf : List Int) (r c : Nat) (s0 s1 o : Int) :
    flip ⟨buf, [r, c], [s0, s1], o⟩ 1 =
      some ⟨buf, [r, c], [s0, -s1], o + s1 * ((c : Int) - 1)⟩ := by
  rw [flip]
  norm_num [step, List.range_succ]

theorem transpose_2d_swap (buf : List Int) (d0 d1 : Nat) (t0 t1 o : Int) :
    transpose ⟨buf, [d0, d1], [t0, t1], o⟩ (some [1, 0]) =
      some ⟨buf, [d1, d0], [t1, t0], o⟩ := by
  rw [transpose]
  norm_num [List.range_succ]

theorem swapAxesList_two : swapAxesList 2 0 1 = [1, 0] := by decide

/-- One default `rot90` (`k = 1`, `axes = [0, 1]`) on an explicit 2-D
view: flip the second axis, then swap the two axes. -/
theorem rot90_default_2d (buf : List Int) (r c : Nat) (s0 s1 o : Int) :
    rot90 ⟨buf, [r, c], [s0, s1], o⟩ none none =
      some ⟨buf, [c, r], [-s1, s0], o + s1 * ((c : Int) - 1)⟩ := by
  have hw : wrapNeg 1 % 4 = 1 := by decide
  simp only [rot90, hw]
  norm_num [swapAxesList_two, flip_2d_axis1, transpose_2d_swap]

/-- **C8**.  Applying `rot90` four times with its default arguments
(`k = 1`, `axes = [0, 1]`) to any 2-D view returns exactly the original
view (same buffer, shape, strides and offset, hence the same shape and
pairwise-equal elements). -/
theorem rot90_four_times_identity (v : View) (h1 : v.shape.length = 2)
    (h2 : v.strides.length = 2) :
    (rot90 v none none >>= fun v1 => rot90 v1 none none >>= fun v2 =>
      rot90 v2 none none >>= fun v3 => rot90 v3 none none) = some v := by
  obtain ⟨buf, shape, strides, o⟩ := v
  have h1' : shape.length = 2 := h1
  have h2' : strides.length = 2 := h2
  obtain ⟨r, c, rfl⟩ := List.length_eq_two.mp h1'
  obtain ⟨s0, s1, rfl⟩ := List.length_eq_two.mp h2'
  rw [rot90_default_2d]
  simp only [Option.bind_eq_bind, Option.some_bind]
  rw [rot90_default_2d]
  simp only [Option.bind_eq_bind, Option.some_bind]
  rw [rot90_default_2d]
  simp only [Option.bind_eq_bind, Option.some_bind]
  rw [rot90_default_2d]
  simp only [neg_neg, Option.some.injEq, View.mk.injEq, true_and]
  ring

/-- **C8** witness: four default rotations of the concrete 2×2 view. -/
theorem rot90_four_times_identity_witness :
    (rot90 sampleView none none >>= fun v1 => rot90 v1 none none >>= fun v2 =>
      rot90 v2 none none >>= fun v3 => rot90 v3 none none) = some sampleView :=
  rot90_four_times_identity sampleView rfl rfl

/-! ### Buffer store: mutation-visible views

For the frame claims (fft/ifft and the unary element-wise operations) the
shared mutable Buffer (§3) is made explicit: a store is the list of all
allocated buffers and a view refers to its buffer by index.  In-place
mutation becomes `List.set` on the store. -/

/-- A view whose buffer lives in a store (`bufId` indexes the store). -/
structure RView where
  bufId : Nat
  shape : List Nat
  strides : List Int
  offset : Int
deriving DecidableEq

/-- The store of allocated buffers. -/
abbrev Store := List (List Int)

/-- Element of a store-backed view at a multi-index. -/
def readElem (store : Store) (v : RView) (idx : List Nat) : Int :=
  (store.getD v.bufId []).getD
    (v.offset + ((idx.zip v.strides).map (fun p => (p.1 : Int) * p.2)).sum).toNat 0

/-- The elements of a store-backed view in row-major traversal order. -/
def elemsR (store : Store) (v : RView) : List Int :=
  (indicesOf v.shape).map (readElem store v)

/-- Row-major (C order) strides of a shape. -/
def rowMajorStrides : List Nat → List Int
  | [] => []
  | _ :: t => ((t.foldr (fun d acc => d * acc) 1 : Nat) : Int) :: rowMajorStrides t

/-- Modelled from the spec: `NdArray.clone` is not part of the given
sources.  §4.2: "always allocates a new Buffer with identical
shape/values, contiguous row-major layout, offset 0."  The fresh buffer
is appended to the store. -/
def clone (store : Store) (v : RView) : Store × RView :=
  (store ++ [elemsR store v],
   ⟨store.length, v.shape, rowMajorStrides v.shape, 0⟩)

/-- Modelled from the spec: the ndarray `pick(null, …, null, j)` used by
`fft`/`ifft` — §4.2: fixes the given (here: last) axis to index `j`,
dropping it from the shape; remaining axes keep their strides; shares the
buffer. -/
def pickLast (v : RView) (j : Int) : RView :=
  ⟨v.bufId, v.shape.dropLast, v.strides.dropLast,
   v.offset + j * (v.strides.getLast?.getD 0)⟩

/-- `fft`/`ifft` (src/lib/index.ts, lines 720-760), parametrized by the
numeric FFT collaborator `F` (§6: given a sign and the two picked
real/imaginary sub-views, performs an in-place transform on the buffer
they address — here `F sign realView imagView buf` returns the new
content of that buffer).  The input is cloned, the clone's trailing
dimension must equal exactly 2 (`throw new errors.ValueError(...)`
otherwise, in which case the caller's store is untouched), and the
transform rewrites the clone's buffer in place. -/
def fftWith (F : Int → RView → RView → List Int → List Int) (sign : Int)
    (store : Store) (x : RView) : Except Unit (Store × RView) :=
  let sy := clone store x
  if sy.2.shape.getLast? = some 2 then
    .ok (sy.1.set sy.2.bufId
      (F sign (pickLast sy.2 0) (pickLast sy.2 1) (sy.1.getD sy.2.bufId [])), sy.2)
  else .error ()

/-- `fft(x)`: sign `1`. -/
def fft (F : Int → RView → RView → List Int → List Int)
    (store : Store) (x : RView) : Except Unit (Store × RView) :=
  fftWith F 1 store x

/-- `ifft(x)`: sign `-1`. -/
def ifft (F : Int → RView → RView → List Int → List Int)
    (store : Store) (x : RView) : Except Unit (Store × RView) :=
  fftWith F (-1) store x

theorem store_set_fresh_get (store : Store) (b b' : List Int) (i : Nat)
    (h : i < store.length) :
    ((store ++ [b]).set store.length b').get? i = store.get? i := by
  rw [List.get?_set_ne _ _ (by omega)]
  exact List.get?_append h

theorem elemsR_congr (store store' : Store) (v : RView)
    (h : store'.get? v.bufId = store.get? v.bufId) :
    elemsR store' v = elemsR store v := by
  unfold elemsR readElem
  refine List.map_congr_left (fun idx _ => ?_)
  simp only [List.getD_eq_getD_get?, h]

theorem fftWith_cases (F : Int → RView → RView → List Int → List Int)
    (sign : Int) (store : Store) (x : RView) :
    (fftWith F sign store x = .error () ↔ x.shape.getLast? ≠ some 2) ∧
    (∀ store' y, fftWith F sign store x = .ok (store', y) →
      x.bufId < store.length →
      store'.get? x.bufId = store.get? x.bufId ∧
      elemsR store' x = elemsR store x ∧ y.shape = x.shape) := by
  constructor
  · unfold fftWith clone
    by_cases h : x.shape.getLast? = some 2
    · simp [h]
    · simp [h]
  · intro store' y h hid
    unfold fftWith clone at h
    by_cases hs : x.shape.getLast? = some 2
    · simp only [hs, if_true] at h
      rw [Except.ok.injEq, Prod.mk.injEq] at h
      obtain ⟨h3, h4⟩ := h
      subst h3
      subst h4
      have hget := store_set_fresh_get store (elemsR store x)
        (F sign (pickLast ⟨store.length, x.shape, rowMajorStrides x.shape, 0⟩ 0)
          (pickLast ⟨store.length, x.shape, rowMajorStrides x.shape, 0⟩ 1)
          ((store ++ [elemsR store x]).getD store.length [])) x.bufId hid
      exact ⟨hget, elemsR_congr store _ x hget, rfl⟩
    · simp [hs] at h

/-- **C4**.  `fft(x)` and `ifft(x)` raise a `ValueError` if and only if
the last dimension of `x`'s shape is not exactly 2 (a rank-0 shape has no
last dimension and errors as well); and the caller's input array is left
unmodified on every call: on error the store is never touched (the check
throws before any write), and on success the transform rewrites only the
clone's fresh buffer — the input's buffer entry, its elements, and the
returned clone's shape are as claimed. -/
theorem fft_checks_trailing_dim_and_preserves_input :
    (∀ (F : Int → RView → RView → List Int → List Int) (store : Store) (x : RView),
      (fft F store x = .error () ↔ x.shape.getLast? ≠ some 2) ∧
      (ifft F store x = .error () ↔ x.shape.getLast? ≠ some 2)) ∧
    (∀ (F : Int → RView → RView → List Int → List Int) (store : Store)
      (x : RView) (store' : Store) (y : RView),
      fft F store x = .ok (store', y) ∨ ifft F store x = .ok (store', y) →
      x.bufId < store.length →
      store'.get? x.bufId = store.get? x.bufId ∧
      elemsR store' x = elemsR store x ∧ y.shape = x.shape) := by
  constructor
  · intro F store x
    exact ⟨(fftWith_cases F 1 store x).1, (fftWith_cases F (-1) store x).1⟩
  · intro F store x store' y h hid
    rcases h with h | h
    · exact (fftWith_cases F 1 store x).2 store' y h hid
    · exact (fftWith_cases F (-1) store x).2 store' y h hid

/-- **C4** witness: a concrete transform on a 1-point complex signal;
the caller's buffer `[1, 2]` is untouched, the clone's buffer holds the
transformed values. -/
theorem fft_preserves_input_witness :
    (([[1, 2], [2, 3]] : Store).get? 0 = ([[1, 2]] : Store).get? 0) ∧
    elemsR [[1, 2], [2, 3]] ⟨0, [2], [1], 0⟩ = elemsR [[1, 2]] ⟨0, [2], [1], 0⟩ ∧
    (⟨1, [2], [1], 0⟩ : RView).shape = (⟨0, [2], [1], 0⟩ : RView).shape :=
  fft_checks_trailing_dim_and_preserves_input.2
    (fun _ _ _ b => b.map (fun e => e + 1)) [[1, 2]] ⟨0, [2], [1], 0⟩
    [[1, 2], [2, 3]] ⟨1, [2], [1], 0⟩ (Or.inl (by rfl)) (by decide)

/-- The shared unary-operation pattern of the facade.  In src,
`tanh`, `cos`, `sin`, `tan`, `arcsin`, `arccos`, `arctan`, `abs`,
`sigmoid`, `clip` and `leakyRelu` all read
`const s = x instanceof NdArray ? x.clone() : NdArray.new(x);
 ops.<fun>eq(s.selection); return s;`
and `exp`, `log`, `sqrt`, `negative`, `round` delegate to NdArray
methods that are not part of the given sources — modelled from the spec
(§4.3: unary ops "apply in place on a copy of the input (never mutate
the caller's View)").  The clone is contiguous, covering its whole fresh
buffer, so the in-place elementwise kernel `f` maps over the entire
cloned buffer. -/
def unaryOnCopy (f : Int → Int) (store : Store) (x : RView) : Store × RView :=
  let sy := clone store x
  (sy.1.set sy.2.bufId ((sy.1.getD sy.2.bufId []).map f), sy.2)

/-- **C7**.  Every unary element-wise facade operation operates on a
copy: for any elementwise kernel `f`, after the call the caller's buffer
entry and the caller's elements are unchanged, and the result has the
same shape as the input. -/
theorem unary_ops_operate_on_copy :
    ∀ (f : Int → Int) (store : Store) (x : RView),
      x.bufId < store.length →
      ((unaryOnCopy f store x).1.get? x.bufId = store.get? x.bufId ∧
       elemsR (unaryOnCopy f store x).1 x = elemsR store x ∧
       (unaryOnCopy f store x).2.shape = x.shape) := by
  intro f store x hid
  have hget := store_set_fresh_get store (elemsR store x)
    (((store ++ [elemsR store x]).getD store.length []).map f) x.bufId hid
  exact ⟨hget, elemsR_congr store _ x hget, rfl⟩

/-- **C7** witness: incrementing a 1-element array leaves the caller's
buffer `[5]` unchanged and keeps the shape. -/
theorem unary_ops_operate_on_copy_witness :
    (unaryOnCopy (fun e => e + 1) [[5]] ⟨0, [1], [1], 0⟩).1.get? 0 =
      ([[5]] : Store).get? 0 ∧
    elemsR (unaryOnCopy (fun e => e + 1) [[5]] ⟨0, [1], [1], 0⟩).1
        ⟨0, [1], [1], 0⟩ =
      elemsR [[5]] ⟨0, [1], [1], 0⟩ ∧
    (unaryOnCopy (fun e => e + 1) [[5]] ⟨0, [1], [1], 0⟩).2.shape =
      (⟨0, [1], [1], 0⟩ : RView).shape :=
  unary_ops_operate_on_copy _ [[5]] ⟨0, [1], [1], 0⟩ (by decide)

/-! ### `stack` (src/lib/index.ts, lines 792-839) -/

/-- The shape-comparison loop of `stack`:
`len = max(...); for (j = 0; j < len; j++) expectedShape[j] !== shape[j]`
— entries past the end are `undefined` (`none`). -/
def shapesMatch (s1 s2 : List Nat) : Bool :=
  (List.range (max s1.length s2.length)).all (fun j => s1.get? j = s2.get? j)

/-- `stack(arrays, axis=0)` on views.  `axis = axis || 0`; an empty input
list raises `ValueError`; every input's shape is compared against the
first input's; the `zeros([k].concat(shape))` / `pick(i).assign(...)`
construction (NdArray methods not under src/) is modelled from the spec
(§4.5: "builds a new array with one extra leading dimension equal to the
input count", whose `i`-th slice holds the `i`-th input's elements — in
row-major order the buffer is the concatenation of the inputs'
elements); a nonzero `axis` transposes the leading dimension to `axis`
(negative axis re-computed by adding the result's rank). -/
def stack (arrays : List View) (axis? : Option Int) : Except Unit View :=
  let axis : Int := match axis? with | none => 0 | some a => a
  match arrays with
  | [] => .error ()
  | a0 :: rest =>
    if rest.any (fun a => !(shapesMatch a.shape a0.shape)) then .error ()
    else
      let stShape := (rest.length + 1) :: a0.shape
      let stacked : View :=
        ⟨((a0 :: rest).map View.elems).join, stShape, rowMajorStrides stShape, 0⟩
      if axis ≠ 0 then
        let axis2 : Int :=
          if axis < 0 then (stacked.shape.length : Int) + axis else axis
        let axes : List Int := (List.range stacked.shape.length).map
          (fun (i : Nat) => if (i : Int) < axis2 then (i : Int) + 1
            else if (i : Int) = axis2 then 0 else (i : Int))
        match transpose stacked (some axes) with
        | some t => .ok t
        | none => .error ()
      else .ok stacked

theorem shapesMatch_iff (s1 s2 : List Nat) : shapesMatch s1 s2 = true ↔ s1 = s2 := by
  constructor
  · intro h
    apply List.ext
    intro n
    by_cases hn : n < max s1.length s2.length
    · have hmem : n ∈ List.range (max s1.length s2.length) := List.mem_range.mpr hn
      have := List.all_eq_true.mp h n hmem
      exact of_decide_eq_true this
    · have hn1 : s1.length ≤ n := by omega
      have hn2 : s2.length ≤ n := by omega
      rw [List.get?_eq_none.mpr hn1, List.get?_eq_none.mpr hn2]
  · rintro rfl
    unfold shapesMatch
    simp

theorem map_range_getD {α : Type} (l : List α) (d0 : α) :
    (List.range l.length).map (fun i => l.getD i d0) = l := by
  refine List.ext_get (by simp) (fun n h1 h2 => ?_)
  simp only [List.get_eq_getElem, List.getElem_map, List.getElem_range]
  rw [List.getD_eq_getElem l d0 h2]

theorem map_cast_range_getD {α : Type} (m : List α) (d0 : α) :
    ((List.range m.length).map Int.ofNat).map
      (fun ax => m.getD ax.toNat d0) = m := by
  refine List.ext_get (by simp) (fun n h1 h2 => ?_)
  simp only [List.get_eq_getElem, List.getElem_map, List.getElem_range]
  rw [show ∀ k : Nat, (Int.ofNat k).toNat = k from fun k => rfl,
    List.getD_eq_getElem m d0 h2]

theorem transpose_identity (w : View) (h : w.strides.length = w.shape.length) :
    transpose w (some ((List.range w.shape.length).map Int.ofNat)) =
      some w := by
  obtain ⟨buf, shape, strides, o⟩ := w
  have h' : strides.length = shape.length := h
  simp only [transpose]
  rw [if_pos]
  · rw [Option.some.injEq, View.mk.injEq]
    refine ⟨rfl, map_cast_range_getD shape 0, ?_, rfl⟩
    have := map_cast_range_getD strides 0
    rw [h'] at this
    exact this
  · constructor
    · simp
    · rw [List.all_eq_true]
      intro i hi
      exact decide_eq_true (List.mem_map.mpr ⟨i, hi, rfl⟩)

theorem rowMajorStrides_length (s : List Nat) :
    (rowMajorStrides s).length = s.length := by
  induction s with
  | nil => rfl
  | cons d t ih => simp [rowMajorStrides, ih]

/-- **C5**.  Stacking a non-empty list of same-shaped arrays at `axis = 0`
succeeds with one extra leading dimension equal to the input count; any
two inputs with different shapes raise a `ValueError`; the default axis
is `0`; and a negative axis in `[-rank, 0)` behaves as that axis plus the
result's rank. -/
theorem stack_shape_law :
    (∀ (a0 : View) (rest : List View) (s : List Nat),
      (∀ a ∈ a0 :: rest, a.shape = s) →
      ∃ v, stack (a0 :: rest) (some 0) = .ok v ∧
        v.shape = (rest.length + 1) :: s) ∧
    (∀ (arrays : List View) (axis? : Option Int),
      (∃ a ∈ arrays, ∃ b ∈ arrays, a.shape ≠ b.shape) →
      stack arrays axis? = .error ()) ∧
    (∀ arrays : List View, stack arrays none = stack arrays (some 0)) ∧
    (∀ (a0 : View) (rest : List View) (axis : Int),
      -((a0.shape.length : Int) + 1) ≤ axis → axis < 0 →
      stack (a0 :: rest) (some axis) =
        stack (a0 :: rest) (some (axis + (a0.shape.length + 1 : Int)))) := by
  refine ⟨?_, ?_, fun arrays => rfl, ?_⟩
  · intro a0 rest s hall
    have h0 : a0.shape = s := hall a0 (List.mem_cons_self a0 rest)
    have hany : rest.any (fun a => !(shapesMatch a.shape a0.shape)) = false := by
      rw [List.any_eq_false]
      intro a ha
      have hsh : a.shape = a0.shape :=
        (hall a (List.mem_cons_of_mem _ ha)).trans h0.symm
      simp [(shapesMatch_iff _ _).mpr hsh]
    refine ⟨⟨((a0 :: rest).map View.elems).join,
      (rest.length + 1) :: a0.shape,
      rowMajorStrides ((rest.length + 1) :: a0.shape), 0⟩, ?_, by
        simp [h0]⟩
    simp [stack, hany]
  · intro arrays axis? h
    obtain ⟨a, ha, b, hb, hne⟩ := h
    cases arrays with
    | nil => simp at ha
    | cons a0 rest =>
      have hx : ∃ x ∈ rest, x.shape ≠ a0.shape := by
        by_contra hc
        push_neg at hc
        have hsa : a.shape = a0.shape := by
          rcases List.mem_cons.mp ha with rfl | h'
          · rfl
          · exact hc a h'
        have hsb : b.shape = a0.shape := by
          rcases List.mem_cons.mp hb with rfl | h'
          · rfl
          · exact hc b h'
        exact hne (hsa.trans hsb.symm)
      obtain ⟨x, hxm, hxne⟩ := hx
      have hany : rest.any (fun a => !(shapesMatch a.shape a0.shape)) = true := by
        rw [List.any_eq_true]
        refine ⟨x, hxm, ?_⟩
        have : shapesMatch x.shape a0.shape = false := by
          rcases hb2 : shapesMatch x.shape a0.shape with _ | _
          · rfl
          · exact absurd ((shapesMatch_iff _ _).mp hb2) hxne
        simp [this]
      simp [stack, hany]
  · intro a0 rest axis hge hlt
    cases hany : rest.any (fun a => !(shapesMatch a.shape a0.shape)) with
    | true => simp [stack, hany]
    | false =>
      simp only [stack, hany, Bool.false_eq_true, if_false]
      have hne0 : axis ≠ 0 := by omega
      rw [if_pos hne0, if_pos (show axis < 0 from hlt)]
      have hd : ((rest.length + 1) :: a0.shape).length = a0.shape.length + 1 := by
        simp
      by_cases hz : axis + (a0.shape.length + 1 : Int) = 0
      · rw [if_neg (show ¬(axis + (a0.shape.length + 1 : Int) ≠ 0) from by omega)]
        have haxes :
            (List.range ((rest.length + 1) :: a0.shape).length).map
              (fun (i : Nat) => if (i : Int) <
                  ((((rest.length + 1) :: a0.shape).length : Int) + axis) then (i : Int) + 1
                else if (i : Int) =
                  ((((rest.length + 1) :: a0.shape).length : Int) + axis) then 0
                else (i : Int)) =
            (List.range ((rest.length + 1) :: a0.shape).length).map Int.ofNat := by
          refine List.map_congr_left (fun i _ => ?_)
          rw [hd]
          simp only [Int.ofNat_eq_coe]
          split_ifs <;> omega
        rw [haxes]
        have hid := transpose_identity
          ⟨((a0 :: rest).map View.elems).join, (rest.length + 1) :: a0.shape,
            rowMajorStrides ((rest.length + 1) :: a0.shape), 0⟩
          (by simp [rowMajorStrides_length])
        rw [hid]
      · rw [if_pos (show axis + (a0.shape.length + 1 : Int) ≠ 0 from hz),
          if_neg (show ¬(axis + (a0.shape.length + 1 : Int) < 0) from by
            rw [hd] at *
            omega)]
        have heq : ((((rest.length + 1) :: a0.shape).length : Int) + axis) =
            axis + (a0.shape.length + 1 : Int) := by
          rw [hd]
          push_cast
          ring
        rw [heq]

/-- **C5** witness: stacking two 1-D arrays of shape `[2]` at axis `0`
yields shape `[2, 2]`. -/
theorem stack_shape_law_witness :
    ∃ v, stack [⟨[1, 2], [2], [1], 0⟩, ⟨[3, 4], [2], [1], 0⟩] (some 0) = .ok v ∧
      v.shape = [2, 2] :=
  stack_shape_law.1 ⟨[1, 2], [2], [1], 0⟩ [⟨[3, 4], [2], [1], 0⟩] [2] (by decide)

/-! ### `concatenate` (src/lib/index.ts, lines 621-682)

`concatenate` works on the nested-list (`tolist()`) representation of its
inputs, accumulating into `m`.  Nested JavaScript arrays of numbers are
embedded as a rose tree `NArr`. -/

inductive NArr where
  | leaf : Int → NArr
  | node : List NArr → NArr

/-- Modelled from the spec: `_.getShape` (the utils module is not under
src/) — §4.2: shape is inferred "by walking nesting depth and
first-element lengths"; an empty list contributes a dimension of 0. -/
def getShape : NArr → List Nat
  | .leaf _ => []
  | .node [] => [0]
  | .node (h :: t) => (t.length + 1) :: getShape h

/-- `m[row].concat(a[row])` on two nested values.  On irregular input
JavaScript would throw a `TypeError` (number `.concat`) — modelled as an
error; the theorems below only use regular inputs, where both sides are
lists. -/
def rowConcat : NArr → NArr → Except Unit NArr
  | .node r, .node r' => .ok (.node (r ++ r'))
  | _, _ => .error ()

/-- Collect a list of fallible results, stopping at the first error —
the behaviour of the JavaScript `for` loops, which propagate the first
thrown exception. -/
def collectOk {α : Type} : List (Except Unit α) → Except Unit (List α)
  | [] => .ok []
  | .error e :: _ => .error e
  | .ok y :: rest => (collectOk rest).map (fun ys => y :: ys)

/-- The rows of a nested value (a number has none).  Used by the rank-2
and rank-3 branches of `concatStep`; those branches are guarded by shape
conditions that force both operands to be lists, so `rows` is only ever
applied to `node`s there. -/
def rows : NArr → List NArr
  | .leaf _ => []
  | .node l => l

/-- The body of `for (i = 1; i < arrays.length; i++)`: join `a` onto the
accumulated `m`.  The branch conditions are transcribed disjunct by
disjunct (the mixed-rank disjuncts are unreachable after the rank
equality check, as in the source).  The row loops run over
`mShape[0]` (and `mShape[1]`) positions; for the regular inputs below
this coincides with `zipWith` over the rows. -/
def concatStep (m a : NArr) : Except Unit NArr :=
  let mShape := getShape m
  let aShape := getShape a
  if mShape.length ≠ aShape.length then .error ()
  else if mShape.length = 1 ∧ aShape.length = 1 then rowConcat m a
  else if (mShape.length = 2 ∧ aShape.length = 2 ∧ mShape.get? 0 = aShape.get? 0) ∨
      (mShape.length = 1 ∧ aShape.length = 2 ∧ mShape.get? 0 = aShape.get? 0) ∨
      (mShape.length = 2 ∧ aShape.length = 1 ∧ mShape.get? 0 = aShape.get? 0) then
    (collectOk (List.zipWith rowConcat (rows m) (rows a))).map .node
  else if (mShape.length = 3 ∧ aShape.length = 3 ∧
        mShape.get? 0 = aShape.get? 0 ∧ mShape.get? 1 = aShape.get? 1) ∨
      (mShape.length = 2 ∧ aShape.length = 3 ∧
        mShape.get? 0 = aShape.get? 0 ∧ mShape.get? 1 = aShape.get? 1) ∨
      (mShape.length = 3 ∧ aShape.length = 2 ∧
        mShape.get? 0 = aShape.get? 0 ∧ mShape.get? 1 = aShape.get? 1) then
    (collectOk (List.zipWith (fun r r' =>
      match r, r' with
      | .node cr, .node cr' =>
        (collectOk (List.zipWith rowConcat cr cr')).map NArr.node
      | _, _ => .error ()) (rows m) (rows a))).map .node
  else .error ()

/-- The accumulation loop of `concatenate`. -/
def concatLoop : NArr → List NArr → Except Unit NArr
  | m, [] => .ok m
  | m, a :: rest =>
    match concatStep m a with
    | .error e => .error e
    | .ok m' => concatLoop m' rest

/-- `concatenate(arrays)` on the nested representation.  The final
`NdArray.new(m, arrays[0].dtype)` returns the accumulated nested value;
a call with zero arrays reads `arrays[0]` as `undefined` (not exercised
by the claims — modelled as an error). -/
def concatenate (arrays : List NArr) : Except Unit NArr :=
  match arrays with
  | [] => .error ()
  | m0 :: rest => concatLoop m0 rest

/-- A 1-D nested array. -/
def vec (l : List Int) : NArr :=
  .node (l.map .leaf)

/-- A 2-D nested array (list of rows). -/
def mat (rows : List (List Int)) : NArr :=
  .node (rows.map vec)

/-- A 3-D nested array (list of matrices). -/
def cube (ms : List (List (List Int))) : NArr :=
  .node (ms.map mat)

theorem getShape_vec (l : List Int) : getShape (vec l) = [l.length] := by
  cases l with
  | nil => simp [vec, getShape]
  | cons x xs => simp [vec, getShape]

theorem getShape_mat (r : List Int) (rest : List (List Int)) :
    getShape (mat (r :: rest)) = [rest.length + 1, r.length] := by
  simp [mat, getShape, getShape_vec]

theorem collectOk_length {α : Type} :
    ∀ (l : List (Except Unit α)) (res : List α),
      collectOk l = .ok res → res.length = l.length := by
  intro l
  induction l with
  | nil =>
    intro res h
    simp only [collectOk] at h
    cases h
    rfl
  | cons x rest ih =>
    intro res h
    cases x with
    | error e => simp [collectOk] at h
    | ok y =>
      simp only [collectOk] at h
      cases hr : collectOk rest with
      | error e => rw [hr] at h; simp [Except.map] at h
      | ok ys =>
        rw [hr] at h
        simp only [Except.map] at h
        cases h
        simp [ih ys hr]

theorem collectOk_map_ok {α : Type} (l : List α) :
    collectOk (l.map Except.ok) = .ok l := by
  induction l with
  | nil => rfl
  | cons x rest ih => simp [collectOk, Except.map, ih]

theorem getShape_node_one (l : List NArr)
    (h : (getShape (.node l)).length = 1) : getShape (.node l) = [l.length] := by
  cases l with
  | nil => rfl
  | cons x t =>
    simp only [getShape, List.length_cons] at h ⊢
    have hx : getShape x = [] := List.length_eq_zero.mp (by omega)
    rw [hx]

theorem getShape_node_append (l l' : List NArr)
    (h : (getShape (.node l)).length = 1) (h' : (getShape (.node l')).length = 1) :
    getShape (.node (l ++ l')) = [l.length + l'.length] := by
  cases l with
  | nil => simpa using getShape_node_one l' h'
  | cons x t =>
    have hx : getShape x = [] := by
      simp only [getShape, List.length_cons] at h
      exact List.length_eq_zero.mp (by omega)
    simp only [List.cons_append, getShape, hx, List.length_append,
      List.length_cons]
    rw [List.cons.injEq]
    refine ⟨?_, rfl⟩
    simp only [List.append_eq, List.length_append]
    omega

theorem rank2_rows (lm la res : List NArr) (n c c' : Nat)
    (hm : getShape (.node lm) = [n, c]) (ha : getShape (.node la) = [n, c'])
    (hres : collectOk (List.zipWith rowConcat lm la) = .ok res) :
    getShape (.node res) = [n, c + c'] := by
  cases lm with
  | nil => simp [getShape] at hm
  | cons h t =>
    cases la with
    | nil => simp [getShape] at ha
    | cons h' t' =>
      simp only [getShape, List.cons.injEq] at hm ha
      obtain ⟨hn, hh⟩ := hm
      obtain ⟨hn', hh'⟩ := ha
      cases h with
      | leaf v => simp [getShape] at hh
      | node hr =>
        cases h' with
        | leaf v => simp [getShape] at hh'
        | node hr' =>
          simp only [List.zipWith_cons_cons, rowConcat, collectOk] at hres
          cases hz : collectOk (List.zipWith rowConcat t t') with
          | error e => rw [hz] at hres; simp [Except.map] at hres
          | ok ys =>
            rw [hz] at hres
            simp only [Except.map] at hres
            cases hres
            have hyl : ys.length = t.length := by
              have hcl := collectOk_length _ ys hz
              rw [List.length_zipWith] at hcl
              omega
            have hc : hr.length = c := by
              have := getShape_node_one hr (by rw [hh]; rfl)
              rw [hh] at this
              exact (List.cons.inj this.symm).1
            have hc' : hr'.length = c' := by
              have := getShape_node_one hr' (by rw [hh']; rfl)
              rw [hh'] at this
              exact (List.cons.inj this.symm).1
            have happ := getShape_node_append hr hr'
              (by rw [hh]; rfl) (by rw [hh']; rfl)
            simp only [getShape, happ, List.length_cons, hyl, hc, hc']
            rw [hn]

theorem rank3_rows (lm la res : List NArr) (n c d d' : Nat)
    (hm : getShape (.node lm) = [n, c, d]) (ha : getShape (.node la) = [n, c, d'])
    (hres : collectOk (List.zipWith (fun r r' =>
      match r, r' with
      | .node cr, .node cr' =>
        (collectOk (List.zipWith rowConcat cr cr')).map NArr.node
      | _, _ => .error ()) lm la) = .ok res) :
    getShape (.node res) = [n, c, d + d'] := by
  cases lm with
  | nil => simp [getShape] at hm
  | cons h t =>
    cases la with
    | nil => simp [getShape] at ha
    | cons h' t' =>
      simp only [getShape, List.cons.injEq] at hm ha
      obtain ⟨hn, hh⟩ := hm
      obtain ⟨hn', hh'⟩ := ha
      cases h with
      | leaf v => simp [getShape] at hh
      | node hr =>
        cases h' with
        | leaf v => simp [getShape] at hh'
        | node hr' =>
          simp only [List.zipWith_cons_cons] at hres
          cases hinner : collectOk (List.zipWith rowConcat hr hr') with
          | error e =>
            rw [hinner] at hres
            rw [show (Except.error e : Except Unit (List NArr)).map NArr.node =
              Except.error e from rfl] at hres
            simp [collectOk] at hres
          | ok ires =>
            rw [hinner] at hres
            rw [show (Except.ok ires : Except Unit (List NArr)).map NArr.node =
              Except.ok (NArr.node ires) from rfl] at hres
            simp only [collectOk] at hres
            cases hz : collectOk (List.zipWith (fun r r' =>
              match r, r' with
              | .node cr, .node cr' =>
                (collectOk (List.zipWith rowConcat cr cr')).map NArr.node
              | _, _ => .error ()) t t') with
            | error e => rw [hz] at hres; simp [Except.map] at hres
            | ok ys =>
              rw [hz] at hres
              simp only [Except.map] at hres
              cases hres
              have hyl : ys.length = t.length := by
                have hcl := collectOk_length _ ys hz
                rw [List.length_zipWith] at hcl
                omega
              have hmid := rank2_rows hr hr' ires c d d' hh hh' hinner
              simp only [getShape, List.length_cons, hyl, hmid]
              rw [hn]

/-- A successful `concatStep` forces: equal ranks, rank at most 3, equal
non-last axes, and a result shape that adds the last axes. -/
theorem concatStep_ok (m a m' : NArr) (h : concatStep m a = .ok m') :
    ∃ (pre : List Nat) (dm da : Nat),
      getShape m = pre ++ [dm] ∧ getShape a = pre ++ [da] ∧
      getShape m' = pre ++ [dm + da] ∧ pre.length ≤ 2 := by
  simp only [concatStep] at h
  by_cases h1 : (getShape m).length ≠ (getShape a).length
  · rw [if_pos h1] at h
    exact absurd h (by simp)
  rw [if_neg h1] at h
  by_cases h2 : (getShape m).length = 1 ∧ (getShape a).length = 1
  · rw [if_pos h2] at h
    obtain ⟨hm1, ha1⟩ := h2
    cases m with
    | leaf v => simp [getShape] at hm1
    | node lm =>
      cases a with
      | leaf v => simp [getShape] at ha1
      | node la =>
        simp only [rowConcat] at h
        injection h with h'
        subst h'
        exact ⟨[], lm.length, la.length, getShape_node_one lm hm1,
          getShape_node_one la ha1, getShape_node_append lm la hm1 ha1,
          by simp⟩
  rw [if_neg h2] at h
  by_cases h3 : ((getShape m).length = 2 ∧ (getShape a).length = 2 ∧
      (getShape m).get? 0 = (getShape a).get? 0) ∨
      ((getShape m).length = 1 ∧ (getShape a).length = 2 ∧
        (getShape m).get? 0 = (getShape a).get? 0) ∨
      ((getShape m).length = 2 ∧ (getShape a).length = 1 ∧
        (getShape m).get? 0 = (getShape a).get? 0)
  · rw [if_pos h3] at h
    have hlen : (getShape m).length = (getShape a).length := not_ne_iff.mp h1
    rcases h3 with ⟨hm2, ha2, hax⟩ | ⟨hm2, ha2, _⟩ | ⟨hm2, ha2, _⟩
    · cases m with
      | leaf v => simp [getShape] at hm2
      | node lm =>
        cases a with
        | leaf v => simp [getShape] at ha2
        | node la =>
          simp only [rows] at h
          cases hcol : collectOk (List.zipWith rowConcat lm la) with
          | error e => rw [hcol] at h; simp [Except.map] at h
          | ok res =>
            rw [hcol] at h
            rw [show (Except.ok res : Except Unit (List NArr)).map NArr.node =
              Except.ok (NArr.node res) from rfl] at h
            injection h with h'
            subst h'
            obtain ⟨n, c, hm⟩ := List.length_eq_two.mp hm2
            obtain ⟨n', c', ha⟩ := List.length_eq_two.mp ha2
            have hnn : n = n' := by
              rw [hm, ha] at hax
              simpa using hax
            subst hnn
            exact ⟨[n], c, c', hm, ha, rank2_rows lm la res n c c' hm ha hcol,
              by simp⟩
    · omega
    · omega
  rw [if_neg h3] at h
  by_cases h4 : ((getShape m).length = 3 ∧ (getShape a).length = 3 ∧
      (getShape m).get? 0 = (getShape a).get? 0 ∧
      (getShape m).get? 1 = (getShape a).get? 1) ∨
      ((getShape m).length = 2 ∧ (getShape a).length = 3 ∧
        (getShape m).get? 0 = (getShape a).get? 0 ∧
        (getShape m).get? 1 = (getShape a).get? 1) ∨
      ((getShape m).length = 3 ∧ (getShape a).length = 2 ∧
        (getShape m).get? 0 = (getShape a).get? 0 ∧
        (getShape m).get? 1 = (getShape a).get? 1)
  · rw [if_pos h4] at h
    have hlen : (getShape m).length = (getShape a).length := not_ne_iff.mp h1
    rcases h4 with ⟨hm3, ha3, hax0, hax1⟩ | ⟨hm3, ha3, _, _⟩ | ⟨hm3, ha3, _, _⟩
    · cases m with
      | leaf v => simp [getShape] at hm3
      | node lm =>
        cases a with
        | leaf v => simp [getShape] at ha3
        | node la =>
          simp only [rows] at h
          cases hcol : collectOk (List.zipWith (fun r r' =>
            match r, r' with
            | .node cr, .node cr' =>
              (collectOk (List.zipWith rowConcat cr cr')).map NArr.node
            | _, _ => .error ()) lm la) with
          | error e => rw [hcol] at h; simp [Except.map] at h
          | ok res =>
            rw [hcol] at h
            rw [show (Except.ok res : Except Unit (List NArr)).map NArr.node =
              Except.ok (NArr.node res) from rfl] at h
            injection h with h'
            subst h'
            obtain ⟨n, c, d, hm⟩ := List.length_eq_three.mp hm3
            obtain ⟨n', c', d', ha⟩ := List.length_eq_three.mp ha3
            have hnn : n = n' := by
              rw [hm, ha] at hax0
              simpa using hax0
            have hcc : c = c' := by
              rw [hm, ha] at hax1
              simpa using hax1
            subst hnn
            subst hcc
            exact ⟨[n, c], d, d', hm, ha,
              rank3_rows lm la res n c d d' hm ha hcol, by simp⟩
    · omega
    · omega
  · rw [if_neg h4] at h
    exact absurd h (by simp)

/-- Along a successful `concatenate` run, every later input agrees with
the accumulator in rank and in all non-last axes, and the rank is ≤ 3. -/
theorem concatLoop_ok_invariant :
    ∀ (rest : List NArr) (m r : NArr), concatLoop m rest = .ok r →
      ∀ x ∈ rest, (getShape x).length = (getShape m).length ∧
        (getShape x).dropLast = (getShape m).dropLast ∧
        (getShape m).length ≤ 3 := by
  intro rest
  induction rest with
  | nil =>
    intro m r _ x hx
    simp at hx
  | cons a rest' ih =>
    intro m r h x hx
    simp only [concatLoop] at h
    cases hs : concatStep m a with
    | error e =>
      rw [hs] at h
      simp at h
    | ok m' =>
      rw [hs] at h
      simp only at h
      obtain ⟨pre, dm, da, hm, ha, hm', hpre⟩ := concatStep_ok m a m' hs
      rcases List.mem_cons.mp hx with rfl | hx'
      · refine ⟨?_, ?_, ?_⟩
        · rw [ha, hm]
          simp
        · rw [ha, hm]
          simp
        · rw [hm]
          simp
          omega
      · obtain ⟨hl, hd, _⟩ := ih m' r h x hx'
        refine ⟨?_, ?_, ?_⟩
        · rw [hl, hm', hm]
          simp
        · rw [hd, hm', hm]
          simp
        · rw [hm]
          simp
          omega

theorem rowConcat_vec (r r' : List Int) :
    rowConcat (vec r) (vec r') = .ok (vec (r ++ r')) := by
  simp [rowConcat, vec]

/-- **C6** (amended).  `concatenate` joins its inputs along the last
axis (shown for ranks 1 and 2 in general and for a rank-3 instance) and
raises a `ValueError` when any two inputs differ in rank or when any
non-last axis differs in size between two inputs; when at least two
inputs are given, any input of rank 4 or higher makes the call fail; a
*single* input is returned unchanged without any validation (the
comparison loop never runs). -/
theorem concatenate_rules :
    (∀ (arrays : List NArr) (a b : NArr), a ∈ arrays → b ∈ arrays →
      (getShape a).length ≠ (getShape b).length →
      concatenate arrays = .error ()) ∧
    (∀ (arrays : List NArr) (a b : NArr), a ∈ arrays → b ∈ arrays →
      (getShape a).dropLast ≠ (getShape b).dropLast →
      concatenate arrays = .error ()) ∧
    (∀ (arrays : List NArr) (a : NArr), 2 ≤ arrays.length → a ∈ arrays →
      4 ≤ (getShape a).length → concatenate arrays = .error ()) ∧
    (∀ x : NArr, concatenate [x] = .ok x) ∧
    (∀ l1 l2 : List Int, concatenate [vec l1, vec l2] = .ok (vec (l1 ++ l2))) ∧
    (∀ rows1 rows2 : List (List Int), rows1 ≠ [] → rows2 ≠ [] →
      rows1.length = rows2.length →
      concatenate [mat rows1, mat rows2] =
        .ok (mat (List.zipWith (fun r r' => r ++ r') rows1 rows2))) ∧
    concatenate [cube [[[1, 2]]], cube [[[3]]]] = .ok (cube [[[1, 2, 3]]]) := by
  refine ⟨?_, ?_, ?_, fun x => rfl, ?_, ?_, by rfl⟩
  · intro arrays a b ha hb hne
    cases harr : concatenate arrays with
    | error e =>
      cases e
      rfl
    | ok r =>
      exfalso
      cases arrays with
      | nil => simp at ha
      | cons m0 rest =>
        have inv := concatLoop_ok_invariant rest m0 r harr
        have key : ∀ x ∈ m0 :: rest,
            (getShape x).length = (getShape m0).length := by
          intro x hx
          rcases List.mem_cons.mp hx with rfl | hx'
          · rfl
          · exact (inv x hx').1
        exact hne ((key a ha).trans (key b hb).symm)
  · intro arrays a b ha hb hne
    cases harr : concatenate arrays with
    | error e =>
      cases e
      rfl
    | ok r =>
      exfalso
      cases arrays with
      | nil => simp at ha
      | cons m0 rest =>
        have inv := concatLoop_ok_invariant rest m0 r harr
        have key : ∀ x ∈ m0 :: rest,
            (getShape x).dropLast = (getShape m0).dropLast := by
          intro x hx
          rcases List.mem_cons.mp hx with rfl | hx'
          · rfl
          · exact (inv x hx').2.1
        exact hne ((key a ha).trans (key b hb).symm)
  · intro arrays a hlen2 ha h4
    cases harr : concatenate arrays with
    | error e =>
      cases e
      rfl
    | ok r =>
      exfalso
      cases arrays with
      | nil => simp at ha
      | cons m0 rest =>
        cases rest with
        | nil => simp at hlen2
        | cons a1 rest' =>
          have inv := concatLoop_ok_invariant (a1 :: rest') m0 r harr
          have hb : (getShape m0).length ≤ 3 :=
            (inv a1 (List.mem_cons_self _ _)).2.2
          rcases List.mem_cons.mp ha with rfl | ha'
          · omega
          · have := (inv a ha').1
            omega
  · intro l1 l2
    simp only [concatenate, concatLoop, concatStep, getShape_vec]
    norm_num
    simp [rowConcat, vec, List.map_append]
  · intro rows1 rows2 h1 h2 hlen
    obtain ⟨r1, rest1, rfl⟩ := List.exists_cons_of_ne_nil h1
    obtain ⟨r2, rest2, rfl⟩ := List.exists_cons_of_ne_nil h2
    have hl : rest1.length = rest2.length := by
      simpa using hlen
    simp only [concatenate, concatLoop, concatStep, getShape_mat]
    norm_num [hl]
    have hzip : List.zipWith rowConcat (rows (mat (r1 :: rest1)))
        (rows (mat (r2 :: rest2))) =
        (List.zipWith (fun r r' => vec (r ++ r')) (r1 :: rest1)
          (r2 :: rest2)).map Except.ok := by
      simp only [rows, mat, List.zipWith_map, rowConcat_vec]
      rw [List.map_zipWith]
    rw [hzip, collectOk_map_ok]
    rw [show ∀ l : List NArr, (Except.ok l : Except Unit (List NArr)).map
      NArr.node = Except.ok (NArr.node l) from fun l => rfl]
    rw [mat, ← List.map_zipWith]
    rfl

/-- **C6** counterexample.  The claim says every input of rank 4 or
higher fails with an error; but with a *single* rank-4 input the
comparison loop never runs and `concatenate` returns the input as a new
array. -/
theorem concatenate_single_rank4_counterexample :
    concatenate [NArr.node [NArr.node [NArr.node [NArr.node [NArr.leaf 1]]]]] =
      .ok (NArr.node [NArr.node [NArr.node [NArr.node [NArr.leaf 1]]]]) :=
  rfl

/-- **C6** witness: a rank-1 and a rank-2 input differ in rank, so the
call raises. -/
theorem concatenate_rules_witness :
    concatenate [vec [1], mat [[2]]] = .error () :=
  concatenate_rules.1 [vec [1], mat [[2]]] (vec [1]) (mat [[2]])
    (List.mem_cons_self _ _)
    (List.mem_cons_of_mem _ (List.mem_cons_self _ _))
    (by simp [getShape_vec, getShape_mat])

end NJ
